import Mathlib

/-!
Verification of the data refresh and materialization pipeline of the
user-dashboard application (`src/app.py`): a shallow embedding of
`fetch_and_store_data` (API fetch → full-table replace) and `load_data`
(snapshot read → derived-feature computation), together with theorems
settling the specification's claims about them.
-/

namespace ConsumoApis

/-- A parsed User record from the remote JSON body. `id` is the integer
primary key; the remaining free-text fields are nullable (`u.get(...)`
yields `None` when the key is absent). -/
structure UserRecord where
  id : Int
  name : Option String
  username : Option String
  email : Option String
  phone : Option String
  website : Option String
  deriving DecidableEq, Repr

/-- The persisted snapshot: `none` models a database in which the `users`
table has never been created; `some rows` models the `users` table holding
`rows` in primary-key (= SQLite rowid) order, the order in which
`SELECT * FROM users` returns them. -/
abbrev Snapshot := Option (List UserRecord)

/-- `INSERT OR REPLACE INTO users ... VALUES (?, ?, ?, ?, ?, ?)` on a table
whose rows are kept in primary-key order: a row with the same `id` is
replaced in place, otherwise the new row is inserted at its key position. -/
def upsert : List UserRecord → UserRecord → List UserRecord
  | [], u => [u]
  | v :: t, u =>
    if u.id < v.id then u :: v :: t
    else if u.id = v.id then u :: t
    else v :: upsert t u

/-- The insertion loop `for u in users: cur.execute('INSERT OR REPLACE ...')`
run against the freshly recreated (empty) `users` table. -/
def storeUsers (users : List UserRecord) : List UserRecord :=
  users.foldl upsert []

/-- An HTTP response from the remote endpoint: its status code and, for the
cases the pipeline consumes, the parsed JSON body `response.json()`. -/
structure HttpResponse where
  status : Nat
  body : List UserRecord

/-- The failure taxonomy of the refresh pipeline: a non-success HTTP status
(`st.error` naming the status code, `return None`) is `remoteFetchError`;
any exception caught by the surrounding `try/except` is `pipelineError`. -/
inductive FetchError where
  | remoteFetchError (status : Nat)
  | pipelineError
  deriving DecidableEq, Repr

/-- `fetch_and_store_data` (src/app.py lines 100-141): issue the request
(`none` models `requests.get` raising, handled by the generic `except`);
on a non-200 status report the status code and write nothing; on success
drop and recreate the `users` table, insert every fetched record, and
return `len(users)`. -/
def fetch_and_store_data (db : Snapshot) (net : Option HttpResponse) :
    Snapshot × Except FetchError Nat :=
  match net with
  | none => (db, .error .pipelineError)
  | some resp =>
    if resp.status ≠ 200 then (db, .error (.remoteFetchError resp.status))
    else (some (storeUsers resp.body), .ok resp.body.length)

/-- Python `str(x)` applied to a nullable string: `None` stringifies to the
four-character literal `"None"` (the `astype(str)` coercion in `load_data`). -/
def pyStr : Option String → String
  | none => "None"
  | some s => s

/-- Python `str.split(sep)` (no limit) on the character list of a string:
`"".split(sep) = [""]`, and every occurrence of `sep` starts a new piece. -/
def pySplit (sep : Char) : List Char → List (List Char)
  | [] => [[]]
  | c :: cs =>
    match pySplit sep cs with
    | [] => [[]]
    | f :: rest => if c = sep then [] :: f :: rest else (c :: f) :: rest

/-- `name_length`: `df['name'].astype(str).apply(len)`. -/
def name_length_of (name : Option String) : Nat :=
  (pyStr name).length

/-- `email_domain`:
`df['email'].astype(str).apply(lambda x: x.split('@')[-1].lower() if '@' in str(x) else None)`. -/
def email_domain_of (email : Option String) : Option String :=
  let x := pyStr email
  if '@' ∈ x.data then
    some (String.mk (((pySplit '@' x.data).getLastD []).map Char.toLower))
  else none

/-- A row of the derived view: the snapshot row plus the two computed
columns `name_length` and `email_domain`. -/
structure DerivedRow where
  id : Int
  name : Option String
  username : Option String
  email : Option String
  phone : Option String
  website : Option String
  name_length : Nat
  email_domain : Option String
  deriving DecidableEq, Repr

/-- The feature engineering applied to one snapshot row by `load_data`. -/
def deriveRow (u : UserRecord) : DerivedRow :=
  { id := u.id, name := u.name, username := u.username, email := u.email
    phone := u.phone, website := u.website
    name_length := name_length_of u.name
    email_domain := email_domain_of u.email }

/-- The failure taxonomy of the loader: reading when the `users` table does
not exist (`SELECT * FROM users` before any refresh) is `noDataError`. -/
inductive LoadError where
  | noDataError
  deriving DecidableEq, Repr

/-- `load_data` (src/app.py lines 145-156): `SELECT * FROM users`, then
compute the two derived columns. The snapshot is only read, never written,
so it is returned unchanged. -/
def load_data (db : Snapshot) :
    Snapshot × Except LoadError (List DerivedRow) :=
  match db with
  | none => (none, .error .noDataError)
  | some rows => (some rows, .ok (rows.map deriveRow))

/-- `C3`: For every remote response whose status is not success (for example
HTTP 500), the refresh pipeline fails with a `RemoteFetchError` carrying the
response status code and performs no write: the snapshot after the failed
call equals the snapshot before it. -/
theorem remote_error_no_write (db : Snapshot) (resp : HttpResponse)
    (h : resp.status ≠ 200) :
    fetch_and_store_data db (some resp) =
      (db, .error (.remoteFetchError resp.status)) := by
  simp [fetch_and_store_data, h]

/-- Witness for `C3` at status 500 against an empty prior snapshot. -/
theorem remote_error_no_write_witness :
    (500 : Nat) ≠ 200 ∧
      fetch_and_store_data none (some ⟨500, []⟩) =
        (none, .error (.remoteFetchError 500)) :=
  ⟨by decide, remote_error_no_write none ⟨500, []⟩ (by decide)⟩

/-- `C4`: Invoking the loader when the snapshot table does not exist fails,
the error is `NoDataError`, and an error is never produced for any other
reason or with any other error value: every failing load has error
`noDataError` and happens exactly on the table-less snapshot. -/
theorem load_no_table_noDataError (db : Snapshot) (e : LoadError)
    (h : (load_data db).2 = .error e) :
    e = .noDataError ∧ db = none ∧
      (load_data none).2 = Except.error LoadError.noDataError := by
  cases db with
  | none => cases e; simp [load_data]
  | some rows => simp [load_data] at h

/-- Witness for `C4`: the table-less snapshot does fail with `noDataError`. -/
theorem load_no_table_noDataError_witness :
    LoadError.noDataError = LoadError.noDataError ∧ (none : Snapshot) = none ∧
      (load_data none).2 = Except.error LoadError.noDataError :=
  load_no_table_noDataError none .noDataError rfl

/-- `C6`: `name_length` is the character count of `name` after coercing a
missing name to the literal string `"None"`: a missing name yields 4, a
present name yields its character count, and `"Leanne Graham"` yields 13. -/
theorem name_length_spec :
    (∀ u : UserRecord, (deriveRow u).name_length = name_length_of u.name) ∧
    name_length_of none = 4 ∧
    (name_length_of none = "None".length) ∧
    (∀ s : String, name_length_of (some s) = s.length) ∧
    name_length_of (some "Leanne Graham") = 13 := by
  refine ⟨fun u => rfl, rfl, rfl, fun s => rfl, rfl⟩

/-- `C8`: the loader is pure and deterministic: it never mutates the
snapshot, and two consecutive invocations on any snapshot produce
identical results. -/
theorem load_data_pure (db : Snapshot) :
    (load_data db).1 = db ∧
      load_data (load_data db).1 = load_data db := by
  cases db <;> simp [load_data]

theorem pySplit_ne_nil (sep : Char) (l : List Char) : pySplit sep l ≠ [] := by
  induction l with
  | nil => simp [pySplit]
  | cons c cs ih =>
    simp only [pySplit]
    cases pySplit sep cs with
    | nil => simp
    | cons f rest => by_cases hc : c = sep <;> simp [hc]

theorem pySplit_of_not_mem (sep : Char) (l : List Char) (h : sep ∉ l) :
    pySplit sep l = [l] := by
  induction l with
  | nil => rfl
  | cons c cs ih =>
    simp only [List.mem_cons, not_or] at h
    simp only [pySplit, ih h.2]
    rw [if_neg fun hc => h.1 hc.symm]

theorem pySplit_two_of_mem (sep : Char) (l : List Char) (h : sep ∈ l) :
    ∃ f g rest, pySplit sep l = f :: g :: rest := by
  induction l with
  | nil => cases h
  | cons c cs ih =>
    by_cases hc : c = sep
    · obtain ⟨f, rest, hf⟩ : ∃ f rest, pySplit sep cs = f :: rest := by
        cases hps : pySplit sep cs with
        | nil => exact absurd hps (pySplit_ne_nil sep cs)
        | cons f rest => exact ⟨f, rest, rfl⟩
      exact ⟨[], f, rest, by simp [pySplit, hf, hc]⟩
    · have hcs : sep ∈ cs := by
        rcases List.mem_cons.mp h with h1 | h2
        · exact absurd h1.symm hc
        · exact h2
      obtain ⟨f, g, rest, hf⟩ := ih hcs
      exact ⟨c :: f, g, rest, by simp [pySplit, hf, hc]⟩

theorem pySplit_last_cons (sep c : Char) (cs : List Char) (h : sep ∈ cs) :
    (pySplit sep (c :: cs)).getLastD [] = (pySplit sep cs).getLastD [] := by
  obtain ⟨f, g, rest, hf⟩ := pySplit_two_of_mem sep cs h
  by_cases hc : c = sep <;> simp [pySplit, hf, hc, List.getLastD_cons]

/-- The last piece of a Python split: splitting a string containing `sep`
decomposes it as `p ++ sep :: d` with `sep ∉ d`, and the last piece is `d`
(the substring after the last separator). -/
theorem pySplit_last (sep : Char) (l : List Char) (h : sep ∈ l) :
    ∃ p d, l = p ++ sep :: d ∧ sep ∉ d ∧ (pySplit sep l).getLastD [] = d := by
  induction l with
  | nil => cases h
  | cons c cs ih =>
    by_cases hcs : sep ∈ cs
    · obtain ⟨p, d, hl, hd, hlast⟩ := ih hcs
      exact ⟨c :: p, d, by rw [hl]; rfl, hd,
        (pySplit_last_cons sep c cs hcs).trans hlast⟩
    · have hc : c = sep := by
        rcases List.mem_cons.mp h with h1 | h2
        · exact h1.symm
        · exact absurd h2 hcs
      subst hc
      exact ⟨[], cs, rfl, hcs, by
        simp [pySplit, pySplit_of_not_mem c cs hcs, List.getLastD_cons]⟩

theorem pySplit_last_concat (sep : Char) (t : List Char) :
    (pySplit sep (t ++ [sep])).getLastD [] = [] := by
  induction t with
  | nil => simp [pySplit, List.getLastD_cons]
  | cons c t ih =>
    have hmem : sep ∈ t ++ [sep] := List.mem_append_right t (by simp)
    rw [List.cons_append, pySplit_last_cons sep c (t ++ [sep]) hmem, ih]

theorem email_domain_of_pos (s : String) (h : '@' ∈ s.data) :
    email_domain_of (some s) =
      some (String.mk (((pySplit '@' s.data).getLastD []).map Char.toLower)) := by
  simp only [email_domain_of, pyStr, if_pos h]

/-- `C5`: `email_domain` is the substring of `email` after the last `@`,
lower-cased; it is `null` when `email` is missing or contains no `@`; and
`email = "a.b@Example.COM"` yields `"example.com"`. -/
theorem email_domain_spec :
    email_domain_of (some "a.b@Example.COM") = some "example.com" ∧
    email_domain_of none = none ∧
    (∀ s : String, '@' ∉ s.data → email_domain_of (some s) = none) ∧
    (∀ s : String, '@' ∈ s.data →
      ∃ p d, s.data = p ++ '@' :: d ∧ '@' ∉ d ∧
        email_domain_of (some s) = some (String.mk (d.map Char.toLower))) := by
  refine ⟨by decide, by decide, fun s h => ?_, fun s h => ?_⟩
  · simp [email_domain_of, pyStr, h]
  · obtain ⟨p, d, hl, hd, hlast⟩ := pySplit_last '@' s.data h
    exact ⟨p, d, hl, hd, by rw [email_domain_of_pos s h, hlast]⟩

/-- Witness for `C5`: an email without `'@'` derives null; an email with
an `'@'` decomposes around its last `'@'` and derives the lower-cased
suffix. -/
theorem email_domain_spec_witness :
    email_domain_of (some "no-at-sign.example") = none ∧
    (∃ p d, "x@Y".data = p ++ '@' :: d ∧ '@' ∉ d ∧
      email_domain_of (some "x@Y") = some (String.mk (d.map Char.toLower))) :=
  ⟨email_domain_spec.2.2.1 "no-at-sign.example" (by decide),
    email_domain_spec.2.2.2 "x@Y" (by decide)⟩

/-- `C10`: a non-null email ending in `'@'` derives the empty-string domain
`""` (not `null`); the `null` result occurs exactly when the email string
contains no `'@'` at all. -/
theorem email_domain_trailing_at :
    email_domain_of (some "user@") = some "" ∧
    (∀ t : List Char,
      email_domain_of (some (String.mk (t ++ ['@']))) = some "") ∧
    (∀ s : String, email_domain_of (some s) = none ↔ '@' ∉ s.data) := by
  refine ⟨by decide, fun t => ?_, fun s => ?_⟩
  · have hmem : '@' ∈ (String.mk (t ++ ['@'])).data :=
      List.mem_append_right t (by simp)
    have h2 : (pySplit '@' (String.mk (t ++ ['@'])).data).getLastD [] = [] :=
      pySplit_last_concat '@' t
    rw [email_domain_of_pos _ hmem, h2]
    rfl
  · by_cases h : '@' ∈ s.data <;> simp [email_domain_of, pyStr, h]

/-- The ids of the rows of a table, in table order. -/
def idsOf (t : List UserRecord) : List Int := t.map (·.id)

/-- Rows strictly ordered by primary key, the invariant of the model of the
`users` table. -/
def SortedById (t : List UserRecord) : Prop :=
  t.Pairwise (fun a b => a.id < b.id)

/-- Row of a table carrying a given primary key, if any. -/
def lookupId (t : List UserRecord) (d : Int) : Option UserRecord :=
  t.find? (fun v => v.id == d)

theorem mem_upsert_weak (t : List UserRecord) (u v : UserRecord)
    (h : v ∈ upsert t u) : v = u ∨ v ∈ t := by
  induction t with
  | nil =>
    simp only [upsert, List.mem_singleton] at h
    exact .inl h
  | cons w t ih =>
    simp only [upsert] at h
    split at h
    · rcases List.mem_cons.mp h with h1 | h2
      exacts [.inl h1, .inr h2]
    · split at h
      · rcases List.mem_cons.mp h with h1 | h2
        exacts [.inl h1, .inr (List.mem_cons_of_mem w h2)]
      · rcases List.mem_cons.mp h with h1 | h2
        · exact .inr (h1 ▸ List.mem_cons_self w t)
        · rcases ih h2 with h3 | h4
          exacts [.inl h3, .inr (List.mem_cons_of_mem w h4)]

theorem sorted_upsert (t : List UserRecord) (u : UserRecord)
    (h : SortedById t) : SortedById (upsert t u) := by
  induction t with
  | nil => simp [upsert, SortedById]
  | cons w t ih =>
    rw [SortedById, List.pairwise_cons] at h
    obtain ⟨hw, ht⟩ := h
    rcases lt_trichotomy u.id w.id with hlt | heq | hgt
    · simp only [upsert, if_pos hlt]
      rw [SortedById, List.pairwise_cons]
      refine ⟨fun b hb => ?_, List.pairwise_cons.mpr ⟨hw, ht⟩⟩
      rcases List.mem_cons.mp hb with h1 | h2
      · exact h1 ▸ hlt
      · exact lt_trans hlt (hw b h2)
    · simp only [upsert, if_neg (by omega : ¬ u.id < w.id), if_pos heq]
      rw [SortedById, List.pairwise_cons]
      exact ⟨fun b hb => heq ▸ hw b hb, ht⟩
    · simp only [upsert, if_neg (by omega : ¬ u.id < w.id),
        if_neg (by omega : ¬ u.id = w.id)]
      rw [SortedById, List.pairwise_cons]
      refine ⟨fun b hb => ?_, ih ht⟩
      rcases mem_upsert_weak t u b hb with h1 | h2
      · subst h1; exact hgt
      · exact hw b h2

theorem mem_upsert (t : List UserRecord) (u v : UserRecord)
    (h : SortedById t) :
    v ∈ upsert t u ↔ v = u ∨ (v ∈ t ∧ v.id ≠ u.id) := by
  induction t with
  | nil => simp [upsert]
  | cons w t ih =>
    rw [SortedById, List.pairwise_cons] at h
    obtain ⟨hw, ht⟩ := h
    have hwid : ∀ b ∈ t, w.id < b.id := hw
    rcases lt_trichotomy u.id w.id with hlt | heq | hgt
    · simp only [upsert, if_pos hlt, List.mem_cons]
      constructor
      · rintro (h1 | h1 | h1)
        · exact .inl h1
        · exact .inr ⟨.inl h1, by subst h1; omega⟩
        · exact .inr ⟨.inr h1, by have := hwid v h1; omega⟩
      · rintro (h1 | ⟨h1 | h1, h2⟩)
        exacts [.inl h1, .inr (.inl h1), .inr (.inr h1)]
    · simp only [upsert, if_neg (by omega : ¬ u.id < w.id), if_pos heq,
        List.mem_cons]
      constructor
      · rintro (h1 | h1)
        · exact .inl h1
        · exact .inr ⟨.inr h1, by have := hwid v h1; omega⟩
      · rintro (h1 | ⟨h1 | h1, h2⟩)
        · exact .inl h1
        · exact absurd (by subst h1; omega : v.id = u.id) h2
        · exact .inr h1
    · simp only [upsert, if_neg (by omega : ¬ u.id < w.id),
        if_neg (by omega : ¬ u.id = w.id), List.mem_cons, ih ht]
      constructor
      · rintro (h1 | h1 | ⟨h1, h2⟩)
        · exact .inr ⟨.inl h1, by subst h1; omega⟩
        · exact .inl h1
        · exact .inr ⟨.inr h1, h2⟩
      · rintro (h1 | ⟨h1 | h1, h2⟩)
        exacts [.inr (.inl h1), .inl h1, .inr (.inr ⟨h1, h2⟩)]

theorem idsOf_upsert (t : List UserRecord) (u : UserRecord) (d : Int) :
    d ∈ idsOf (upsert t u) ↔ d = u.id ∨ d ∈ idsOf t := by
  induction t with
  | nil => simp [upsert, idsOf]
  | cons w t ih =>
    rcases lt_trichotomy u.id w.id with hlt | heq | hgt
    · simp [upsert, if_pos hlt, idsOf]
    · simp only [upsert, if_neg (by omega : ¬ u.id < w.id), if_pos heq,
        idsOf, List.map_cons, List.mem_cons]
      constructor
      · rintro (h1 | h1)
        exacts [.inl h1, .inr (.inr h1)]
      · rintro (h1 | h1 | h1)
        exacts [.inl h1, .inl (by omega), .inr h1]
    · simp only [upsert, if_neg (by omega : ¬ u.id < w.id),
        if_neg (by omega : ¬ u.id = w.id), idsOf, List.map_cons,
        List.mem_cons] at ih ⊢
      rw [ih]
      tauto

theorem length_upsert (t : List UserRecord) (u : UserRecord)
    (h : SortedById t) :
    (upsert t u).length =
      if u.id ∈ idsOf t then t.length else t.length + 1 := by
  induction t with
  | nil => simp [upsert, idsOf]
  | cons w t ih =>
    rw [SortedById, List.pairwise_cons] at h
    obtain ⟨hw, ht⟩ := h
    rcases lt_trichotomy u.id w.id with hlt | heq | hgt
    · have hnot : u.id ∉ idsOf (w :: t) := by
        simp only [idsOf, List.map_cons, List.mem_cons, List.mem_map]
        rintro (h1 | ⟨b, hb, h2⟩)
        · omega
        · have := hw b hb; omega
      simp [upsert, if_pos hlt, hnot]
    · have hin : u.id ∈ idsOf (w :: t) := by
        simp [idsOf, heq]
      simp [upsert, if_neg (by omega : ¬ u.id < w.id), if_pos heq, hin]
    · have hne : (u.id ∈ idsOf (w :: t)) ↔ (u.id ∈ idsOf t) := by
        simp only [idsOf, List.map_cons, List.mem_cons]
        constructor
        · rintro (h1 | h1)
          · omega
          · exact h1
        · exact fun h1 => .inr h1
      simp only [upsert, if_neg (by omega : ¬ u.id < w.id),
        if_neg (by omega : ¬ u.id = w.id), List.length_cons, ih ht, hne]
      split <;> omega

theorem lookupId_cons (w : UserRecord) (t : List UserRecord) (d : Int) :
    lookupId (w :: t) d = if w.id = d then some w else lookupId t d := by
  by_cases h : w.id = d
  · simp [lookupId, List.find?, h]
  · rw [lookupId, List.find?, show (w.id == d) = false by simp [h], if_neg h]
    rfl

theorem lookup_upsert (t : List UserRecord) (u : UserRecord) (d : Int)
    (h : SortedById t) :
    lookupId (upsert t u) d = if u.id = d then some u else lookupId t d := by
  induction t with
  | nil => rw [show upsert [] u = [u] from rfl, lookupId_cons]
  | cons w t ih =>
    rw [SortedById, List.pairwise_cons] at h
    obtain ⟨hw, ht⟩ := h
    rcases lt_trichotomy u.id w.id with hlt | heq | hgt
    · rw [show upsert (w :: t) u = u :: w :: t by
        simp [upsert, if_pos hlt], lookupId_cons]
    · rw [show upsert (w :: t) u = u :: t by
        simp [upsert, if_neg (by omega : ¬ u.id < w.id), heq],
        lookupId_cons, lookupId_cons]
      by_cases hd : u.id = d
      · rw [if_pos hd, if_pos hd]
      · rw [if_neg hd, if_neg hd, if_neg (by omega : ¬ w.id = d)]
    · rw [show upsert (w :: t) u = w :: upsert t u by
        simp [upsert, if_neg (by omega : ¬ u.id < w.id),
          if_neg (by omega : ¬ u.id = w.id)],
        lookupId_cons, ih ht, lookupId_cons]
      by_cases hwd : w.id = d
      · rw [if_pos hwd, if_neg (by omega : ¬ u.id = d), if_pos hwd]
      · rw [if_neg hwd, if_neg hwd]

theorem storeUsers_concat (us : List UserRecord) (u : UserRecord) :
    storeUsers (us ++ [u]) = upsert (storeUsers us) u := by
  simp [storeUsers, List.foldl_append]

theorem sorted_storeUsers (us : List UserRecord) :
    SortedById (storeUsers us) := by
  induction us using List.reverseRecOn with
  | nil => simp [storeUsers, SortedById]
  | append_singleton us u ih =>
    rw [storeUsers_concat]
    exact sorted_upsert _ u ih

theorem idsOf_storeUsers (us : List UserRecord) (d : Int) :
    d ∈ idsOf (storeUsers us) ↔ d ∈ idsOf us := by
  induction us using List.reverseRecOn with
  | nil => simp [storeUsers]
  | append_singleton us u ih =>
    rw [storeUsers_concat, idsOf_upsert, ih]
    simp only [idsOf, List.map_append, List.mem_append, List.map_cons,
      List.map_nil, List.mem_singleton]
    tauto

theorem lookup_storeUsers (us : List UserRecord) (d : Int) :
    lookupId (storeUsers us) d = lookupId us.reverse d := by
  induction us using List.reverseRecOn with
  | nil => rfl
  | append_singleton us u ih =>
    rw [storeUsers_concat, lookup_upsert _ _ _ (sorted_storeUsers us), ih,
      List.reverse_append, List.reverse_singleton, List.singleton_append,
      lookupId_cons]

theorem nodup_idsOf_storeUsers (us : List UserRecord) :
    (idsOf (storeUsers us)).Nodup := by
  have h := sorted_storeUsers us
  rw [SortedById] at h
  show List.Pairwise (fun a b => a ≠ b)
    (List.map (fun u : UserRecord => u.id) (storeUsers us))
  exact List.Pairwise.map (fun u : UserRecord => u.id)
    (fun a b hab => ne_of_lt hab) h

theorem mem_storeUsers (us : List UserRecord) (v : UserRecord)
    (h : (idsOf us).Nodup) : v ∈ storeUsers us ↔ v ∈ us := by
  induction us using List.reverseRecOn with
  | nil => simp [storeUsers]
  | append_singleton us u ih =>
    have hsplit : (idsOf us).Nodup ∧ u.id ∉ idsOf us := by
      rw [idsOf, List.map_append] at h
      simp only [List.map_cons, List.map_nil] at h
      rcases List.nodup_append.mp h with ⟨h1, _, h3⟩
      refine ⟨h1, fun hmem => ?_⟩
      exact h3 hmem (List.mem_singleton_self u.id)
    rw [storeUsers_concat,
      mem_upsert _ _ _ (sorted_storeUsers us), ih hsplit.1]
    simp only [List.mem_append, List.mem_singleton]
    constructor
    · rintro (h1 | ⟨h1, h2⟩)
      exacts [.inr h1, .inl h1]
    · rintro (h1 | h1)
      · refine .inr ⟨h1, fun he => hsplit.2 ?_⟩
        exact he ▸ List.mem_map_of_mem (·.id) h1
      · exact .inl h1

theorem length_storeUsers (us : List UserRecord)
    (h : (idsOf us).Nodup) : (storeUsers us).length = us.length := by
  induction us using List.reverseRecOn with
  | nil => simp [storeUsers]
  | append_singleton us u ih =>
    have hsplit : (idsOf us).Nodup ∧ u.id ∉ idsOf us := by
      rw [idsOf, List.map_append] at h
      simp only [List.map_cons, List.map_nil] at h
      rcases List.nodup_append.mp h with ⟨h1, _, h3⟩
      exact ⟨h1, fun hmem => h3 hmem (List.mem_singleton_self u.id)⟩
    have hnot : u.id ∉ idsOf (storeUsers us) := fun hmem =>
      hsplit.2 ((idsOf_storeUsers us u.id).mp hmem)
    rw [storeUsers_concat, length_upsert _ _ (sorted_storeUsers us),
      if_neg hnot, ih hsplit.1]
    simp

/-- Sample records used by concrete witnesses (shaped like the
jsonplaceholder user list). -/
def sampleA : UserRecord :=
  ⟨1, some "Leanne Graham", some "Bret", some "Sincere@april.biz",
    some "1-770-736-8031", some "hildegard.org"⟩

def sampleB : UserRecord :=
  ⟨2, some "Ervin Howell", some "Antonette", some "Shanna@melissa.tv",
    none, none⟩

/-- `C1`: after every successful refresh the snapshot holds exactly the
fetched collection, whatever the prior snapshot held: refreshing twice in
succession, the second time with a (possibly smaller) collection of
well-formed records (distinct primary keys, per the data model), leaves
the table holding exactly the second collection — same row count, same
membership — with no leftover rows from the first. -/
theorem refresh_replaces_snapshot (db : Snapshot)
    (usersA usersB : List UserRecord) (h : (idsOf usersB).Nodup) :
    (fetch_and_store_data
        (fetch_and_store_data db (some ⟨200, usersA⟩)).1
        (some ⟨200, usersB⟩)).1 = some (storeUsers usersB) ∧
    (∀ v, v ∈ storeUsers usersB ↔ v ∈ usersB) ∧
    (storeUsers usersB).length = usersB.length :=
  ⟨by simp [fetch_and_store_data], fun v => mem_storeUsers usersB v h,
    length_storeUsers usersB h⟩

/-- Witness for `C1`: a two-record fetch followed by a one-record fetch. -/
theorem refresh_replaces_snapshot_witness :
    (idsOf [sampleB]).Nodup ∧
    ((fetch_and_store_data
        (fetch_and_store_data none (some ⟨200, [sampleA, sampleB]⟩)).1
        (some ⟨200, [sampleB]⟩)).1 = some (storeUsers [sampleB]) ∧
    (∀ v, v ∈ storeUsers [sampleB] ↔ v ∈ [sampleB]) ∧
    (storeUsers [sampleB]).length = [sampleB].length) :=
  ⟨by decide,
    refresh_replaces_snapshot none [sampleA, sampleB] [sampleB] (by decide)⟩

/-- `C2`: a successful fetch of `N` well-formed records (distinct primary
keys, per the data model) writes a snapshot of exactly `N` rows matching
the fetched records field-for-field, and returns `N` as the count. -/
theorem refresh_count_and_fields (db : Snapshot)
    (users : List UserRecord) (h : (idsOf users).Nodup) :
    fetch_and_store_data db (some ⟨200, users⟩) =
      (some (storeUsers users), .ok users.length) ∧
    (storeUsers users).length = users.length ∧
    (∀ v, v ∈ storeUsers users ↔ v ∈ users) :=
  ⟨by simp [fetch_and_store_data], length_storeUsers users h,
    fun v => mem_storeUsers users v h⟩

/-- Witness for `C2` on a concrete two-record fetch. -/
theorem refresh_count_and_fields_witness :
    (idsOf [sampleA, sampleB]).Nodup ∧
    (fetch_and_store_data none (some ⟨200, [sampleA, sampleB]⟩) =
      (some (storeUsers [sampleA, sampleB]),
        .ok [sampleA, sampleB].length) ∧
    (storeUsers [sampleA, sampleB]).length = [sampleA, sampleB].length ∧
    (∀ v, v ∈ storeUsers [sampleA, sampleB] ↔ v ∈ [sampleA, sampleB])) :=
  ⟨by decide, refresh_count_and_fields none [sampleA, sampleB] (by decide)⟩

/-- `C9`: a fetch containing duplicate ids still succeeds, and the snapshot
holds exactly one row per distinct fetched id, that row being the last
record with that id in fetch order (the first in the reversed fetch
order): later duplicates overwrite earlier ones via insert-or-replace. -/
theorem refresh_duplicate_ids (db : Snapshot) (users : List UserRecord) :
    fetch_and_store_data db (some ⟨200, users⟩) =
      (some (storeUsers users), .ok users.length) ∧
    (idsOf (storeUsers users)).Nodup ∧
    (∀ d, d ∈ idsOf (storeUsers users) ↔ d ∈ idsOf users) ∧
    (∀ d, lookupId (storeUsers users) d = lookupId users.reverse d) :=
  ⟨by simp [fetch_and_store_data], nodup_idsOf_storeUsers users,
    fun d => idsOf_storeUsers users d, fun d => lookup_storeUsers users d⟩

/-! ### CSV export of the derived view (`df.to_csv(index=False)`) and its
re-parsing, for the round-trip claim. Fields are modelled as character
lists; numbers are written in decimal; a SQL `NULL` is written as the empty
field; fields are minimally quoted (quoted only when they contain the
separator, the quote character or a line break, with inner quotes
doubled); every line, header included, ends in a newline. -/

def digitChar (d : Nat) : Char := Char.ofNat (48 + d)

def natDigitsRev (n : Nat) : List Char :=
  if n < 10 then [digitChar n]
  else digitChar (n % 10) :: natDigitsRev (n / 10)
  decreasing_by exact Nat.div_lt_self (by omega) (by omega)

/-- Decimal rendering of a natural number, most significant digit first. -/
def renderNat (n : Nat) : List Char := (natDigitsRev n).reverse

/-- Decimal rendering of an integer (pandas int64 column formatting). -/
def renderInt : Int → List Char
  | .ofNat n => renderNat n
  | .negSucc m => '-' :: renderNat (m + 1)

def digitVal (c : Char) : Nat := c.toNat - 48

def parseNatRev : List Char → Nat
  | [] => 0
  | c :: cs => digitVal c + 10 * parseNatRev cs

def parseNat (s : List Char) : Nat := parseNatRev s.reverse

def parseInt : List Char → Int
  | [] => 0
  | c :: cs => if c = '-' then -(parseNat cs : Int) else parseNat (c :: cs)

/-- Minimal quoting: a field is quoted iff it contains the separator, the
quote character or a line-break character. -/
def needsQuote (f : List Char) : Prop :=
  ∃ c ∈ f, c = ',' ∨ c = '"' ∨ c = '\n' ∨ c = '\r'

instance (f : List Char) : Decidable (needsQuote f) := by
  unfold needsQuote
  infer_instance

def escapeQuotes : List Char → List Char
  | [] => []
  | c :: cs =>
    if c = '"' then '"' :: '"' :: escapeQuotes cs else c :: escapeQuotes cs

def encodeField (f : List Char) : List Char :=
  if needsQuote f then '"' :: (escapeQuotes f ++ ['"']) else f

def encodeRecord : List (List Char) → List Char
  | [] => []
  | [f] => encodeField f
  | f :: g :: fs => encodeField f ++ ',' :: encodeRecord (g :: fs)

def encodeCsv (rows : List (List (List Char))) : List Char :=
  (rows.map fun r => encodeRecord r ++ ['\n']).flatten

/-- Consume the body of a quoted field (opening quote already consumed):
a doubled quote stands for one quote character, a single quote closes the
field. Returns the field and the unconsumed remainder. -/
def parseQuoted : List Char → List Char × List Char
  | [] => ([], [])
  | c :: cs =>
    if c = '"' then
      match cs with
      | [] => ([], [])
      | c2 :: cs2 =>
        if c2 = '"' then
          let p := parseQuoted cs2
          ('"' :: p.1, p.2)
        else ([], cs)
    else
      let p := parseQuoted cs
      (c :: p.1, p.2)

/-- Consume an unquoted field: everything up to the next separator or
line break. -/
def parseBare : List Char → List Char × List Char
  | [] => ([], [])
  | c :: cs =>
    if c = ',' ∨ c = '\n' then ([], c :: cs)
    else
      let p := parseBare cs
      (c :: p.1, p.2)

def parseField : List Char → List Char × List Char
  | [] => ([], [])
  | c :: cs => if c = '"' then parseQuoted cs else parseBare (c :: cs)

/-- Consume one CSV record: fields separated by `','`, ended by `'\n'` or
the end of input. The fuel bounds the number of fields read. -/
def parseRecordAux : Nat → List Char → List (List Char) × List Char
  | 0, input => ([(parseField input).1], (parseField input).2)
  | fuel + 1, input =>
    match (parseField input).2 with
    | ',' :: r =>
      let p := parseRecordAux fuel r
      ((parseField input).1 :: p.1, p.2)
    | '\n' :: r => ([(parseField input).1], r)
    | _ => ([(parseField input).1], [])

/-- Consume all CSV records; the fuel bounds the number of records. -/
def parseCsvAux : Nat → List Char → List (List (List Char))
  | 0, _ => []
  | fuel + 1, input =>
    if input = [] then []
    else
      let p := parseRecordAux input.length input
      p.1 :: parseCsvAux fuel p.2

def parseCsv (s : List Char) : List (List (List Char)) :=
  parseCsvAux s.length s

theorem digitVal_digitChar (d : Nat) (h : d < 10) :
    digitVal (digitChar d) = d := by
  interval_cases d <;> rfl

theorem digitChar_ne_dash (d : Nat) (h : d < 10) : digitChar d ≠ '-' := by
  interval_cases d <;> decide

theorem natDigitsRev_ne_nil (n : Nat) : natDigitsRev n ≠ [] := by
  rw [natDigitsRev]
  split <;> simp

theorem not_dash_of_mem_natDigitsRev (n : Nat) (c : Char)
    (h : c ∈ natDigitsRev n) : c ≠ '-' := by
  induction n using Nat.strong_induction_on with
  | _ n ih =>
    rw [natDigitsRev] at h
    split at h
    · rename_i h10
      rw [List.mem_singleton] at h
      exact h ▸ digitChar_ne_dash n h10
    · rename_i h10
      rcases List.mem_cons.mp h with h1 | h1
      · exact h1 ▸ digitChar_ne_dash (n % 10) (Nat.mod_lt n (by omega))
      · exact ih (n / 10) (Nat.div_lt_self (by omega) (by omega)) h1

theorem parseNatRev_natDigitsRev (n : Nat) :
    parseNatRev (natDigitsRev n) = n := by
  induction n using Nat.strong_induction_on with
  | _ n ih =>
    rw [natDigitsRev]
    split
    · rename_i h10
      simp [parseNatRev, digitVal_digitChar n h10]
    · rename_i h10
      simp only [parseNatRev]
      rw [ih (n / 10) (Nat.div_lt_self (by omega) (by omega)),
        digitVal_digitChar (n % 10) (Nat.mod_lt n (by omega))]
      omega

theorem parseNat_renderNat (n : Nat) : parseNat (renderNat n) = n := by
  rw [parseNat, renderNat, List.reverse_reverse, parseNatRev_natDigitsRev]

theorem renderNat_ne_nil (n : Nat) : renderNat n ≠ [] := by
  rw [renderNat]
  simp only [ne_eq, List.reverse_eq_nil_iff]
  exact natDigitsRev_ne_nil n

theorem renderNat_head_ne_dash (n : Nat) (c : Char) (cs : List Char)
    (h : renderNat n = c :: cs) : c ≠ '-' := by
  have hmem : c ∈ renderNat n := h ▸ List.mem_cons_self c cs
  rw [renderNat, List.mem_reverse] at hmem
  exact not_dash_of_mem_natDigitsRev n c hmem

theorem parseInt_renderInt (i : Int) : parseInt (renderInt i) = i := by
  cases i with
  | ofNat n =>
    rw [renderInt]
    cases hr : renderNat n with
    | nil => exact absurd hr (renderNat_ne_nil n)
    | cons c cs =>
      simp only [parseInt, if_neg (renderNat_head_ne_dash n c cs hr)]
      rw [← hr, parseNat_renderNat]
      rfl
  | negSucc m =>
    rw [renderInt]
    simp only [parseInt, if_pos rfl]
    rw [parseNat_renderNat, Int.negSucc_eq]
    push_cast
    ring

/-- What may legally follow an encoded field inside a CSV document: the end
of input, a field separator, or a record separator. -/
def RestDelim (rest : List Char) : Prop :=
  rest = [] ∨ rest.head? = some ',' ∨ rest.head? = some '\n'

theorem parseQuoted_end (rest : List Char) (h : rest.head? ≠ some '"') :
    parseQuoted ('"' :: rest) = ([], rest) := by
  conv_lhs => rw [parseQuoted.eq_def]
  simp only [ite_true]
  cases rest with
  | nil => rfl
  | cons c2 cs2 =>
    have hc2 : c2 ≠ '"' := fun he => h (by rw [he]; rfl)
    simp [hc2]

theorem parseQuoted_escaped_quote (cs : List Char) :
    parseQuoted ('"' :: '"' :: cs) =
      ('"' :: (parseQuoted cs).1, (parseQuoted cs).2) := by
  conv_lhs => rw [parseQuoted.eq_def]
  simp only [ite_true]

theorem parseQuoted_other (c : Char) (cs : List Char) (h : c ≠ '"') :
    parseQuoted (c :: cs) = (c :: (parseQuoted cs).1, (parseQuoted cs).2) := by
  conv_lhs => rw [parseQuoted.eq_def]
  simp only
  rw [if_neg h]

theorem parseBare_stop (c : Char) (cs : List Char) (h : c = ',' ∨ c = '\n') :
    parseBare (c :: cs) = ([], c :: cs) := by
  simp only [parseBare]
  rw [if_pos h]

theorem parseBare_go (c : Char) (cs : List Char) (h : ¬(c = ',' ∨ c = '\n')) :
    parseBare (c :: cs) = (c :: (parseBare cs).1, (parseBare cs).2) := by
  simp only [parseBare]
  rw [if_neg h]

theorem parseField_quote (cs : List Char) :
    parseField ('"' :: cs) = parseQuoted cs := by
  simp [parseField]

theorem parseField_other (c : Char) (cs : List Char) (h : c ≠ '"') :
    parseField (c :: cs) = parseBare (c :: cs) := by
  simp only [parseField]
  rw [if_neg h, parseBare]

theorem parseQuoted_escape (f rest : List Char)
    (hrest : rest.head? ≠ some '"') :
    parseQuoted (escapeQuotes f ++ '"' :: rest) = (f, rest) := by
  induction f with
  | nil =>
    rw [show escapeQuotes [] = [] from rfl, List.nil_append,
      parseQuoted_end rest hrest]
  | cons a f' ih =>
    by_cases ha : a = '"'
    · subst ha
      rw [show escapeQuotes ('"' :: f') = '"' :: '"' :: escapeQuotes f' by
          simp [escapeQuotes],
        List.cons_append, List.cons_append, parseQuoted_escaped_quote, ih]
    · rw [show escapeQuotes (a :: f') = a :: escapeQuotes f' by
          simp [escapeQuotes, ha],
        List.cons_append, parseQuoted_other a _ ha, ih]

theorem parseBare_append (f rest : List Char)
    (hf : ∀ c ∈ f, ¬(c = ',' ∨ c = '\n'))
    (hrest : RestDelim rest) :
    parseBare (f ++ rest) = (f, rest) := by
  induction f with
  | nil =>
    rw [List.nil_append]
    rcases hrest with h | h | h
    · subst h; rfl
    · cases rest with
      | nil => simp at h
      | cons c r =>
        have hc : c = ',' := by simpa using h
        exact parseBare_stop c r (Or.inl hc)
    · cases rest with
      | nil => simp at h
      | cons c r =>
        have hc : c = '\n' := by simpa using h
        exact parseBare_stop c r (Or.inr hc)
  | cons a f' ih =>
    have ha : ¬(a = ',' ∨ a = '\n') := hf a (List.mem_cons_self a f')
    rw [List.cons_append, parseBare_go a _ ha,
      ih fun c hc => hf c (List.mem_cons_of_mem a hc)]

theorem parseField_encodeField (f rest : List Char) (hrest : RestDelim rest) :
    parseField (encodeField f ++ rest) = (f, rest) := by
  rw [encodeField]
  by_cases hq : needsQuote f
  · rw [if_pos hq, List.cons_append, List.append_assoc,
      List.singleton_append, parseField_quote]
    have hh : rest.head? ≠ some '"' := by
      rcases hrest with h | h | h <;> simp [h]
    exact parseQuoted_escape f rest hh
  · rw [if_neg hq]
    have hf : ∀ c ∈ f, ¬(c = ',' ∨ c = '\n') := by
      intro c hc hor
      exact hq ⟨c, hc, by tauto⟩
    cases f with
    | nil =>
      rw [List.nil_append]
      rcases hrest with h | h | h
      · subst h; rfl
      · cases rest with
        | nil => simp at h
        | cons c r =>
          have hc : c = ',' := by simpa using h
          rw [parseField_other c r (by rw [hc]; decide),
            parseBare_stop c r (Or.inl hc)]
      · cases rest with
        | nil => simp at h
        | cons c r =>
          have hc : c = '\n' := by simpa using h
          rw [parseField_other c r (by rw [hc]; decide),
            parseBare_stop c r (Or.inr hc)]
    | cons a f' =>
      have ha : a ≠ '"' := by
        intro he
        exact hq ⟨a, List.mem_cons_self a f', by tauto⟩
      rw [List.cons_append, parseField_other a _ ha, ← List.cons_append]
      exact parseBare_append (a :: f') rest hf hrest

theorem parseRecordAux_field_sep (fuel : Nat) (input f r : List Char)
    (hpf : parseField input = (f, ',' :: r)) :
    parseRecordAux (fuel + 1) input =
      (f :: (parseRecordAux fuel r).1, (parseRecordAux fuel r).2) := by
  conv_lhs => rw [parseRecordAux.eq_def]
  simp only [hpf]

theorem parseRecordAux_line_end (fuel : Nat) (input f r : List Char)
    (hpf : parseField input = (f, '\n' :: r)) :
    parseRecordAux (fuel + 1) input = ([f], r) := by
  conv_lhs => rw [parseRecordAux.eq_def]
  simp only [hpf]

theorem parseRecordAux_encodeRecord (fields : List (List Char))
    (rest : List Char) (fuel : Nat) (hne : fields ≠ [])
    (hfuel : fields.length ≤ fuel) :
    parseRecordAux fuel (encodeRecord fields ++ '\n' :: rest) =
      (fields, rest) := by
  induction fields generalizing fuel with
  | nil => exact absurd rfl hne
  | cons f fs ih =>
    cases fuel with
    | zero => simp at hfuel
    | succ fuel =>
      cases fs with
      | nil =>
        have hpf := parseField_encodeField f ('\n' :: rest)
          (Or.inr (Or.inr rfl))
        rw [show encodeRecord [f] = encodeField f from rfl,
          parseRecordAux_line_end fuel _ f rest hpf]
      | cons g fs2 =>
        have hassoc :
            encodeRecord (f :: g :: fs2) ++ '\n' :: rest =
              encodeField f ++
                ',' :: (encodeRecord (g :: fs2) ++ '\n' :: rest) := by
          rw [show encodeRecord (f :: g :: fs2) =
              encodeField f ++ ',' :: encodeRecord (g :: fs2) from rfl,
            List.append_assoc, List.cons_append]
        rw [hassoc]
        have hpf := parseField_encodeField f
          (',' :: (encodeRecord (g :: fs2) ++ '\n' :: rest))
          (Or.inr (Or.inl rfl))
        rw [parseRecordAux_field_sep fuel _ f _ hpf,
          ih fuel (by simp)
            (by simp only [List.length_cons] at hfuel ⊢; omega)]

theorem encodeCsv_cons (r : List (List Char))
    (rows2 : List (List (List Char))) :
    encodeCsv (r :: rows2) = encodeRecord r ++ '\n' :: encodeCsv rows2 := by
  simp only [encodeCsv, List.map_cons, List.flatten_cons, List.append_assoc,
    List.singleton_append]

theorem length_le_encodeRecord (fields : List (List Char)) :
    fields.length ≤ (encodeRecord fields).length + 1 := by
  induction fields with
  | nil => simp
  | cons f fs ih =>
    cases fs with
    | nil => simp
    | cons g fs2 =>
      rw [show encodeRecord (f :: g :: fs2) =
          encodeField f ++ ',' :: encodeRecord (g :: fs2) from rfl]
      simp only [List.length_cons, List.length_append] at ih ⊢
      omega

theorem length_le_encodeCsv (rows : List (List (List Char))) :
    rows.length ≤ (encodeCsv rows).length := by
  induction rows with
  | nil => simp
  | cons r rows2 ih =>
    rw [encodeCsv_cons]
    simp only [List.length_cons, List.length_append] at ih ⊢
    omega

theorem parseCsvAux_step (fuel : Nat) (input : List Char) (h : input ≠ []) :
    parseCsvAux (fuel + 1) input =
      (parseRecordAux input.length input).1 ::
        parseCsvAux fuel (parseRecordAux input.length input).2 := by
  conv_lhs => rw [parseCsvAux.eq_def]
  simp only [if_neg h]

theorem parseCsvAux_encodeCsv (rows : List (List (List Char))) (fuel : Nat)
    (h : ∀ r ∈ rows, r ≠ []) (hfuel : rows.length ≤ fuel) :
    parseCsvAux fuel (encodeCsv rows) = rows := by
  induction rows generalizing fuel with
  | nil =>
    cases fuel with
    | zero => rfl
    | succ fuel => rfl
  | cons r rows2 ih =>
    cases fuel with
    | zero => simp at hfuel
    | succ fuel =>
      have hr : r ≠ [] := h r (List.mem_cons_self r rows2)
      have hne : encodeRecord r ++ '\n' :: encodeCsv rows2 ≠ [] := by
        cases encodeRecord r <;> simp
      have hlen :
          r.length ≤ (encodeRecord r ++ '\n' :: encodeCsv rows2).length := by
        have := length_le_encodeRecord r
        simp only [List.length_append, List.length_cons]
        omega
      rw [encodeCsv_cons, parseCsvAux_step fuel _ hne,
        parseRecordAux_encodeRecord r (encodeCsv rows2) _ hr hlen]
      simp only
      rw [ih fuel (fun x hx => h x (List.mem_cons_of_mem r hx))
        (by simp only [List.length_cons] at hfuel; omega)]

/-- Round trip of the CSV core: parsing an encoded document recovers
every record (for records with at least one field, which all the
application's records have). -/
theorem parseCsv_encodeCsv (rows : List (List (List Char)))
    (h : ∀ r ∈ rows, r ≠ []) : parseCsv (encodeCsv rows) = rows :=
  parseCsvAux_encodeCsv rows (encodeCsv rows).length h
    (length_le_encodeCsv rows)

/-- A nullable text column value as written by the CSV export: a SQL
`NULL` (Python `None`) becomes the empty field. -/
def renderOpt : Option String → List Char
  | none => []
  | some s => s.data

/-- The CSV fields of one derived-view row, in `df.to_csv` column order
(`id,name,username,email,phone,website,name_length,email_domain`). -/
def csvFieldsOf (r : DerivedRow) : List (List Char) :=
  [renderInt r.id, renderOpt r.name, renderOpt r.username,
   renderOpt r.email, renderOpt r.phone, renderOpt r.website,
   renderNat r.name_length, renderOpt r.email_domain]

def csvHeader : List (List Char) :=
  ["id".data, "name".data, "username".data, "email".data, "phone".data,
   "website".data, "name_length".data, "email_domain".data]

/-- `df.to_csv(index=False).encode('utf-8')` of the derived view: a header
record followed by one record per row, every record newline-terminated. -/
def to_csv (rows : List DerivedRow) : List Char :=
  encodeCsv (csvHeader :: rows.map csvFieldsOf)

/-- Re-parsing a text field: an empty field reads back as null (as pandas
`read_csv` turns the empty field into `NaN`). -/
def parseOpt : List Char → Option String
  | [] => none
  | f => some (String.mk f)

/-- The claim's tuple of interest: `(id, name, email, name_length,
email_domain)`. -/
structure ViewTuple where
  id : Int
  name : Option String
  email : Option String
  name_length : Nat
  email_domain : Option String
  deriving DecidableEq, Repr

/-- Decode one parsed CSV record back into the claim's tuple (columns 0,
1, 3, 6, 7 of the export order). -/
def decodeTuple (fields : List (List Char)) : Option ViewTuple :=
  match fields with
  | [i, n, _, e, _, _, nl, ed] =>
    some ⟨parseInt i, parseOpt n, parseOpt e, parseNat nl, parseOpt ed⟩
  | _ => none

/-- Re-parse an exported CSV document: drop the header record, decode every
remaining record into a tuple. -/
def read_csv_tuples (s : List Char) : List (Option ViewTuple) :=
  ((parseCsv s).drop 1).map decodeTuple

/-- Identification of null formatting: the CSV text cannot distinguish a
null field from an empty-string field, so both normalize to null. -/
def nullNorm (o : Option String) : Option String :=
  match o with
  | none => none
  | some s =>
    match s.data with
    | [] => none
    | _ => some s

/-- The `(id, name, email, name_length, email_domain)` tuple of a
derived-view row, null-normalized. -/
def viewTupleOf (r : DerivedRow) : ViewTuple :=
  ⟨r.id, nullNorm r.name, nullNorm r.email, r.name_length,
    nullNorm r.email_domain⟩

theorem parseOpt_renderOpt (o : Option String) :
    parseOpt (renderOpt o) = nullNorm o := by
  match o with
  | none => rfl
  | some s =>
    cases s with
    | mk data =>
      cases data with
      | nil => rfl
      | cons c cs => rfl

theorem decodeTuple_csvFieldsOf (r : DerivedRow) :
    decodeTuple (csvFieldsOf r) = some (viewTupleOf r) := by
  rw [csvFieldsOf, decodeTuple]
  rw [viewTupleOf, parseInt_renderInt, parseNat_renderNat,
    parseOpt_renderOpt, parseOpt_renderOpt, parseOpt_renderOpt]

theorem csvFieldsOf_ne_nil (r : DerivedRow) : csvFieldsOf r ≠ [] := by
  simp [csvFieldsOf]

/-- `C7`: serializing the derived view to comma-separated text and
re-parsing that text yields exactly the original `(id, name, email,
name_length, email_domain)` tuples, row for row, modulo the formatting of
null values (an empty text field reads back as null). -/
theorem csv_roundtrip (rows : List DerivedRow) :
    read_csv_tuples (to_csv rows) =
      rows.map fun r => some (viewTupleOf r) := by
  rw [read_csv_tuples, to_csv, parseCsv_encodeCsv]
  · rw [List.drop_one, List.tail_cons, List.map_map]
    exact List.map_congr_left fun r _ => decodeTuple_csvFieldsOf r
  · intro r hr
    rcases List.mem_cons.mp hr with h | h
    · subst h
      simp [csvHeader]
    · obtain ⟨x, _, rfl⟩ := List.mem_map.mp h
      exact csvFieldsOf_ne_nil x

end ConsumoApis
